import Mathlib

/-!
Verification of the CKY recognizer of the PAA-CKY repository.

The repository holds two near-identical Python classes `Gramatica`:
one in `src/cky.py`, one in `src/main.py`.  A grammar is a mapping from
non-terminal symbols (strings) to lists of production bodies; a body is a
sequence of symbols (the Python sources use either a string of one-character
symbols or a list of strings; here a body is a `List` of symbols).  The
Python `dict` is embedded as an association list in insertion order
(`Normes`); its keys are unique in any state reachable from a Python dict,
which the theorems assume through `Nodup` hypotheses where key lookup
matters.  Python `set`s become `Finset`s; a Python set iteration followed by
`update`-accumulation becomes a `Finset.biUnion`.  The per-key view of the
binary-rule dictionary (`regles_binaries g clau`) returns the set the dict
stores at key `clau`, and the empty set when the key is absent, which is
exactly how the algorithm consumes it (`if clau in self.regles_binaries:
... update(self.regles_binaries[clau])`).
-/

/-- A grammar symbol (terminal or non-terminal). -/
abbrev Simbol := String

/-- A production body: the sequence of symbols on the right-hand side. -/
abbrev Produccio := List Simbol

/-- The grammar mapping (`normes_gramatica` in the sources): a Python dict
from non-terminal to list of production bodies, kept in insertion order. -/
abbrev Normes := List (Simbol × List Produccio)

/-- One CKY table cell: a set of non-terminals (a Python `set()`). -/
abbrev Cella := Finset Simbol

/-- The dynamic-programming table `taula`: an n × n list of lists of cells. -/
abbrev Taula := List (List Cella)

/-- `taula[i][j]` with out-of-range reads defaulting to the empty set. -/
def getCella (t : Taula) (i j : Nat) : Cella :=
  (t.getD i []).getD j ∅

/-- Write cell `(i, j)` of the table (no-op when out of range, as for
`List.set`). -/
def setCella (t : Taula) (i j : Nat) (v : Cella) : Taula :=
  t.set i ((t.getD i []).set j v)

/-- Update cell `(i, j)` of the table by `f` (the Python in-place
`taula[i][j].add`/`.update` patterns). -/
def updCella (t : Taula) (i j : Nat) (f : Cella → Cella) : Taula :=
  setCella t i j (f (getCella t i j))

namespace CKY

/-- The `Gramatica` object of `src/cky.py` after `__init__`: the rule
mapping and the start symbol (`simbol_arrel`).  The derived field
`regles_binaries` is recomputed by the function of the same name. -/
structure Gramatica where
  gramatica : Normes
  simbol_arrel : Simbol

/-- `_preprocessar_regles_binaries` of `src/cky.py` (lines 58-73), viewed
per key: the set of non-terminals stored at key `clau` of the dictionary it
builds (`∅` when the key is absent).  For every entry `(no_terminal,
produccions)` of the grammar and each `produccio` with `len(produccio) == 2`
matching the key `(produccio[0], produccio[1]) = clau`, the non-terminal is
added. -/
def regles_binaries (gramatica : Normes) (clau : Simbol × Simbol) : Finset Simbol :=
  gramatica.foldl
    (fun acc p =>
      p.2.foldl
        (fun acc2 produccio =>
          if produccio.length = 2 ∧ produccio.getD 0 "" = clau.1 ∧ produccio.getD 1 "" = clau.2
          then insert p.1 acc2 else acc2)
        acc)
    ∅

/-- The base-case loop body of `algoritme_cky` in `src/cky.py`
(lines 27-33) for one column: the set of non-terminals `no_terminal` with a
production `produccio` such that `len(produccio) == 1 and produccio[0] ==
paraula`. -/
def derivadorsTerminals (gramatica : Normes) (paraula : Simbol) : Finset Simbol :=
  gramatica.foldl
    (fun acc p =>
      p.2.foldl
        (fun acc2 produccio =>
          if produccio.length = 1 ∧ produccio.getD 0 "" = paraula
          then insert p.1 acc2 else acc2)
        acc)
    ∅

/-- `_comprovar_derivacio_buida` of `src/cky.py` (lines 75-83): if the start
symbol is a key of the grammar dict, scan its productions for one with
`len(produccio) == 1 and produccio[0] in [chr(949), chr(39) ++ chr(39)]`,
i.e. a one-symbol body whose symbol is the epsilon sentinel or the empty
string. -/
def comprovar_derivacio_buida (self : Gramatica) : Bool :=
  match self.gramatica.find? (fun p => p.1 == self.simbol_arrel) with
  | some p =>
      p.2.any (fun produccio =>
        produccio.length == 1 &&
          (produccio.getD 0 "" == "ε" || produccio.getD 0 "" == ""))
  | none => false

/-- The table-filling part of `algoritme_cky` in `src/cky.py` (lines 22-54),
abstracted over the two grammar queries it performs: `derivadors col` is the
base-case deriver set for column `col`, `regles clau` the binary-rule set
for key `clau`.  Mirrors the three nested loops: base case over `col`, then
`n_fila` from 1 to n-1, `diag` over `range(n - n_fila)`, split point `k`
over `range(n_fila)` with the empty-side `continue`, and the double
iteration over the two cell sets accumulating `regles_binaries` hits. -/
def ompleTaula (derivadors : Nat → Finset Simbol) (regles : Simbol × Simbol → Finset Simbol)
    (n : Nat) : Taula :=
  let taula0 : Taula := List.replicate n (List.replicate n ∅)
  let taula1 := (List.range n).foldl
    (fun t col => updCella t col col (fun c => c ∪ derivadors col)) taula0
  (List.range' 1 (n - 1)).foldl
    (fun t n_fila =>
      (List.range (n - n_fila)).foldl
        (fun t diag =>
          let col := diag + n_fila
          (List.range n_fila).foldl
            (fun t k =>
              let part_diag := getCella t diag (diag + k)
              let part_col := getCella t (diag + k + 1) col
              if part_diag = ∅ ∨ part_col = ∅ then t
              else
                updCella t diag col
                  (fun c => c ∪ part_diag.biUnion (fun no_terminal_diag =>
                    part_col.biUnion (fun no_termina_col =>
                      regles (no_terminal_diag, no_termina_col)))))
            t)
        t)
    taula1

/-- The table built by `algoritme_cky` of `src/cky.py` for a non-empty
input `frase`. -/
def construirTaula (self : Gramatica) (frase : List Simbol) : Taula :=
  ompleTaula
    (fun col => derivadorsTerminals self.gramatica (frase.getD col ""))
    (fun clau => regles_binaries self.gramatica clau)
    frase.length

/-- `algoritme_cky` of `src/cky.py` (lines 10-56): empty input consults
`_comprovar_derivacio_buida`; otherwise fill the table and test
`self.simbol_arrel in taula[0][n-1]`. -/
def algoritme_cky (self : Gramatica) (frase : List Simbol) : Bool :=
  if frase = [] then comprovar_derivacio_buida self
  else
    let n := frase.length
    let taula := construirTaula self frase
    decide (self.simbol_arrel ∈ getCella taula 0 (n - 1))

/-- The recognizer of `src/cky.py` with the pruning `continue` removed: the
split point is processed even when one of the two cell sets is empty.  Used
to state that the pruning step is a semantic no-op. -/
def ompleTaulaSensePoda (derivadors : Nat → Finset Simbol)
    (regles : Simbol × Simbol → Finset Simbol) (n : Nat) : Taula :=
  let taula0 : Taula := List.replicate n (List.replicate n ∅)
  let taula1 := (List.range n).foldl
    (fun t col => updCella t col col (fun c => c ∪ derivadors col)) taula0
  (List.range' 1 (n - 1)).foldl
    (fun t n_fila =>
      (List.range (n - n_fila)).foldl
        (fun t diag =>
          let col := diag + n_fila
          (List.range n_fila).foldl
            (fun t k =>
              let part_diag := getCella t diag (diag + k)
              let part_col := getCella t (diag + k + 1) col
              updCella t diag col
                (fun c => c ∪ part_diag.biUnion (fun no_terminal_diag =>
                  part_col.biUnion (fun no_termina_col =>
                    regles (no_terminal_diag, no_termina_col)))))
            t)
        t)
    taula1

/-- `algoritme_cky` of `src/cky.py` with the pruning check removed. -/
def algoritme_cky_sense_poda (self : Gramatica) (frase : List Simbol) : Bool :=
  if frase = [] then comprovar_derivacio_buida self
  else
    let n := frase.length
    let taula := ompleTaulaSensePoda
      (fun col => derivadorsTerminals self.gramatica (frase.getD col ""))
      (fun clau => regles_binaries self.gramatica clau)
      n
    decide (self.simbol_arrel ∈ getCella taula 0 (n - 1))

end CKY

namespace Main

/-- The `Gramatica` object of `src/main.py` after `carregar_gramatica`: the
rule mapping and the start symbol.  The derived `regles_binaries` field is
recomputed by `preprocessar_gramatica`. -/
structure Gramatica where
  gramatica : Normes
  simbol_arrel : Simbol

/-- `carregar_gramatica` of `src/main.py` (lines 10-18): stores the rule
mapping and the start symbol on the object. -/
def carregar_gramatica (normes_gramatica : Normes) (simbol_arrel : Simbol) : Gramatica :=
  { gramatica := normes_gramatica, simbol_arrel := simbol_arrel }

/-- `_preprocessar_gramatica` of `src/main.py` (lines 68-81), viewed per
key, identical to `_preprocessar_regles_binaries` of `src/cky.py`. -/
def preprocessar_gramatica (gramatica : Normes) (clau : Simbol × Simbol) : Finset Simbol :=
  gramatica.foldl
    (fun acc p =>
      p.2.foldl
        (fun acc2 produccio =>
          if produccio.length = 2 ∧ produccio.getD 0 "" = clau.1 ∧ produccio.getD 1 "" = clau.2
          then insert p.1 acc2 else acc2)
        acc)
    ∅

/-- The base-case loop body of `algoritme_cky` in `src/main.py`
(lines 37-43), identical to the one in `src/cky.py`. -/
def derivadorsTerminals (gramatica : Normes) (paraula : Simbol) : Finset Simbol :=
  gramatica.foldl
    (fun acc p =>
      p.2.foldl
        (fun acc2 produccio =>
          if produccio.length = 1 ∧ produccio.getD 0 "" = paraula
          then insert p.1 acc2 else acc2)
        acc)
    ∅

/-- `_comprovar_derivacio_buida` of `src/main.py` (lines 83-89): if the
start symbol is a key of the grammar dict, scan its productions for one
equal to the empty string, i.e. the zero-length body. -/
def comprovar_derivacio_buida (self : Gramatica) : Bool :=
  match self.gramatica.find? (fun p => p.1 == self.simbol_arrel) with
  | some p => p.2.any (fun produccio => produccio == ([] : Produccio))
  | none => false

/-- The table-filling part of `algoritme_cky` in `src/main.py`
(lines 32-64), textually identical to the one in `src/cky.py`. -/
def ompleTaula (derivadors : Nat → Finset Simbol) (regles : Simbol × Simbol → Finset Simbol)
    (n : Nat) : Taula :=
  let taula0 : Taula := List.replicate n (List.replicate n ∅)
  let taula1 := (List.range n).foldl
    (fun t col => updCella t col col (fun c => c ∪ derivadors col)) taula0
  (List.range' 1 (n - 1)).foldl
    (fun t n_fila =>
      (List.range (n - n_fila)).foldl
        (fun t diag =>
          let col := diag + n_fila
          (List.range n_fila).foldl
            (fun t k =>
              let part_diag := getCella t diag (diag + k)
              let part_col := getCella t (diag + k + 1) col
              if part_diag = ∅ ∨ part_col = ∅ then t
              else
                updCella t diag col
                  (fun c => c ∪ part_diag.biUnion (fun no_terminal_diag =>
                    part_col.biUnion (fun no_termina_col =>
                      regles (no_terminal_diag, no_termina_col)))))
            t)
        t)
    taula1

/-- `algoritme_cky` of `src/main.py` (lines 20-66): empty input consults
`_comprovar_derivacio_buida`; otherwise fill the table and test
`self.simbol_arrel in taula[0][n-1]`. -/
def algoritme_cky (self : Gramatica) (frase : List Simbol) : Bool :=
  if frase = [] then comprovar_derivacio_buida self
  else
    let n := frase.length
    let taula := ompleTaula
      (fun col => derivadorsTerminals self.gramatica (frase.getD col ""))
      (fun clau => preprocessar_gramatica self.gramatica clau)
      n
    decide (self.simbol_arrel ∈ getCella taula 0 (n - 1))

end Main

/-- `create_grammar_g1` of `src/main.py` (lines 100-115), with each
one-character string body written as the list of its symbols. -/
def create_grammar_g1 : Normes :=
  [("S", [["a"], ["X", "A"], ["A", "X"], ["b"]]),
   ("A", [["R", "B"]]),
   ("B", [["A", "X"], ["b"], ["a"]]),
   ("X", [["a"]]),
   ("R", [["X", "B"]])]

/-- `create_grammar_g2` of `src/main.py` (lines 117-132). -/
def create_grammar_g2 : Normes :=
  [("S", [["A", "B"], ["C", "D"], ["C", "B"], ["S", "S"]]),
   ("A", [["B", "C"], ["a"]]),
   ("B", [["S", "C"], ["b"]]),
   ("C", [["D", "D"], ["b"]]),
   ("D", [["B", "A"]])]

/-- The grammar `g` contains the pair (non-terminal `x`, production body
`produccio`): some dict entry has key `x` and lists `produccio` among its
bodies. -/
def teParell (g : Normes) (x : Simbol) (produccio : Produccio) : Prop :=
  ∃ p, p ∈ g ∧ x = p.1 ∧ produccio ∈ p.2

/-- The table is an n × n grid: n rows, each of length n. -/
def TaulaQuadrada (n : Nat) (t : Taula) : Prop :=
  t.length = n ∧ ∀ row ∈ t, row.length = n

/-- Every symbol of the cell is a key of the grammar dict. -/
def CellaDeClaus (g : Normes) (c : Cella) : Prop :=
  ∀ x ∈ c, ∃ p, p ∈ g ∧ x = p.1

/-- Every cell of the table only holds keys of the grammar dict. -/
def TaulaDeClaus (g : Normes) (t : Taula) : Prop :=
  ∀ i j, CellaDeClaus g (getCella t i j)

/-! ## Auxiliary list lemmas -/

lemma list_set_getD_self {α : Type} (l : List α) (i : Nat) (d : α) :
    l.set i (l.getD i d) = l := by
  induction l generalizing i with
  | nil => simp
  | cons a t ih =>
    cases i with
    | zero => simp
    | succ j => simpa using ih j

lemma list_getD_set_or {α : Type} (l : List α) (i i' : Nat) (v d : α) :
    (l.set i v).getD i' d = l.getD i' d ∨ (i' = i ∧ (l.set i v).getD i' d = v) := by
  induction l generalizing i i' with
  | nil => simp
  | cons a t ih =>
    cases i with
    | zero =>
      cases i' with
      | zero => exact Or.inr ⟨rfl, by simp⟩
      | succ j => simp
    | succ k =>
      cases i' with
      | zero => simp
      | succ j =>
        rcases ih k j with h | ⟨rfl, h⟩
        · exact Or.inl (by simpa using h)
        · exact Or.inr ⟨rfl, by simpa using h⟩

lemma list_getD_replicate {α : Type} (n i : Nat) (a d : α) :
    (List.replicate n a).getD i d = if i < n then a else d := by
  induction n generalizing i with
  | zero => simp
  | succ m ih =>
    cases i with
    | zero => simp
    | succ j => rw [List.replicate_succ]; simpa using ih j

lemma foldl_inv {α β : Type} (P : β → Prop) (f : β → α → β) (l : List α) (b : β)
    (hb : P b) (hf : ∀ b a, P b → P (f b a)) : P (l.foldl f b) := by
  induction l generalizing b with
  | nil => exact hb
  | cons a t ih => exact ih _ (hf b a hb)

lemma foldl_ext {α β : Type} (f g : β → α → β) (h : ∀ b a, f b a = g b a)
    (l : List α) (b : β) : l.foldl f b = l.foldl g b := by
  have hfg : f = g := funext fun b => funext fun a => h b a
  rw [hfg]

/-! ## Membership in the grammar-scanning folds -/

lemma mem_foldl_produccio (A : Simbol) (cond : Produccio → Prop) [DecidablePred cond]
    (produccions : List Produccio) (acc : Finset Simbol) (x : Simbol) :
    (x ∈ produccions.foldl
        (fun acc2 produccio => if cond produccio then insert A acc2 else acc2) acc) ↔
      x ∈ acc ∨ (x = A ∧ ∃ produccio, produccio ∈ produccions ∧ cond produccio) := by
  induction produccions generalizing acc with
  | nil => simp
  | cons q qs ih =>
    simp only [List.foldl_cons]
    by_cases hq : cond q
    · rw [if_pos hq, ih]
      simp only [Finset.mem_insert, List.mem_cons]
      constructor
      · rintro ((rfl | hx) | ⟨rfl, prod, hmem, hcond⟩)
        · exact Or.inr ⟨rfl, q, Or.inl rfl, hq⟩
        · exact Or.inl hx
        · exact Or.inr ⟨rfl, prod, Or.inr hmem, hcond⟩
      · rintro (hx | ⟨rfl, prod, (rfl | hmem), hcond⟩)
        · exact Or.inl (Or.inr hx)
        · exact Or.inl (Or.inl rfl)
        · exact Or.inr ⟨rfl, prod, hmem, hcond⟩
    · rw [if_neg hq, ih]
      simp only [List.mem_cons]
      constructor
      · rintro (hx | ⟨rfl, prod, hmem, hcond⟩)
        · exact Or.inl hx
        · exact Or.inr ⟨rfl, prod, Or.inr hmem, hcond⟩
      · rintro (hx | ⟨rfl, prod, (rfl | hmem), hcond⟩)
        · exact Or.inl hx
        · exact absurd hcond hq
        · exact Or.inr ⟨rfl, prod, hmem, hcond⟩

lemma mem_foldl_normes (gramatica : Normes) (cond : Produccio → Prop) [DecidablePred cond]
    (acc : Finset Simbol) (x : Simbol) :
    (x ∈ gramatica.foldl
        (fun acc p => p.2.foldl
          (fun acc2 produccio => if cond produccio then insert p.1 acc2 else acc2) acc) acc) ↔
      x ∈ acc ∨ ∃ p, p ∈ gramatica ∧ x = p.1 ∧
        ∃ produccio, produccio ∈ p.2 ∧ cond produccio := by
  induction gramatica generalizing acc with
  | nil => simp
  | cons p ps ih =>
    simp only [List.foldl_cons]
    rw [ih, mem_foldl_produccio]
    simp only [List.mem_cons]
    constructor
    · rintro ((hx | ⟨rfl, hcond⟩) | ⟨q, hq, rfl, hcond⟩)
      · exact Or.inl hx
      · exact Or.inr ⟨p, Or.inl rfl, rfl, hcond⟩
      · exact Or.inr ⟨q, Or.inr hq, rfl, hcond⟩
    · rintro (hx | ⟨q, (rfl | hq), rfl, hcond⟩)
      · exact Or.inl (Or.inl hx)
      · exact Or.inl (Or.inr ⟨rfl, hcond⟩)
      · exact Or.inr ⟨q, hq, rfl, hcond⟩

lemma cond_unitaria_iff (l : Produccio) (w : Simbol) :
    (l.length = 1 ∧ l.getD 0 "" = w) ↔ l = [w] := by
  cases l with
  | nil => simp
  | cons a t => cases t <;> simp

lemma cond_binaria_iff (l : Produccio) (B C : Simbol) :
    (l.length = 2 ∧ l.getD 0 "" = B ∧ l.getD 1 "" = C) ↔ l = [B, C] := by
  cases l with
  | nil => simp
  | cons a t =>
    cases t with
    | nil => simp
    | cons b t2 => cases t2 <;> simp [and_assoc]

lemma mem_derivadorsTerminals (g : Normes) (w x : Simbol) :
    x ∈ CKY.derivadorsTerminals g w ↔ teParell g x [w] := by
  unfold CKY.derivadorsTerminals teParell
  rw [mem_foldl_normes]
  simp only [Finset.not_mem_empty, false_or, cond_unitaria_iff]
  constructor
  · rintro ⟨p, hp, rfl, prod, hmem, rfl⟩
    exact ⟨p, hp, rfl, hmem⟩
  · rintro ⟨p, hp, rfl, hmem⟩
    exact ⟨p, hp, rfl, [w], hmem, rfl⟩

lemma mem_regles_binaries (g : Normes) (B C x : Simbol) :
    x ∈ CKY.regles_binaries g (B, C) ↔ teParell g x [B, C] := by
  unfold CKY.regles_binaries teParell
  rw [mem_foldl_normes]
  simp only [Finset.not_mem_empty, false_or, cond_binaria_iff]
  constructor
  · rintro ⟨p, hp, rfl, prod, hmem, rfl⟩
    exact ⟨p, hp, rfl, hmem⟩
  · rintro ⟨p, hp, rfl, hmem⟩
    exact ⟨p, hp, rfl, [B, C], hmem, rfl⟩

/-! ## Dict lookup (`find?`) under unique keys -/

lemma find_clau_nodup (g : Normes) (s : Simbol)
    (hnodup : (g.map Prod.fst).Nodup)
    (p : Simbol × List Produccio) (hp : p ∈ g) (hs : p.1 = s) :
    g.find? (fun q => q.1 == s) = some p := by
  induction g with
  | nil => cases hp
  | cons q rest ih =>
    rw [List.map_cons, List.nodup_cons] at hnodup
    rcases List.mem_cons.mp hp with rfl | hp2
    · exact List.find?_cons_of_pos _ (by simp [hs])
    · have hqs : ¬(q.1 == s) = true := by
        simp only [beq_iff_eq]
        intro h
        apply hnodup.1
        have hmem : p.1 ∈ rest.map Prod.fst := List.mem_map.mpr ⟨p, hp2, rfl⟩
        rw [hs] at hmem
        rw [h]
        exact hmem
      rw [@List.find?_cons_of_neg _ (fun r => r.1 == s) q rest hqs]
      exact ih hnodup.2 hp2

lemma find_clau_none (g : Normes) (s : Simbol) (h : ∀ p ∈ g, p.1 ≠ s) :
    g.find? (fun q => q.1 == s) = none :=
  List.find?_eq_none.mpr (fun p hp => by simpa [beq_iff_eq] using h p hp)

/-! ## Characterizations of the two empty-derivation checks -/

lemma cond_buida_cky_iff (l : Produccio) :
    (l.length == 1 && (l.getD 0 "" == "ε" || l.getD 0 "" == "")) = true ↔
      l = ["ε"] ∨ l = [""] := by
  cases l with
  | nil => simp
  | cons a t => cases t <;> simp

lemma comprovar_cky_iff (g : Normes) (s : Simbol)
    (hnodup : (g.map Prod.fst).Nodup) :
    CKY.comprovar_derivacio_buida ⟨g, s⟩ = true ↔
      teParell g s ["ε"] ∨ teParell g s [""] := by
  unfold CKY.comprovar_derivacio_buida
  cases hfind : g.find? (fun q => q.1 == s) with
  | none =>
    simp only [Bool.false_eq_true, false_iff]
    rintro (⟨p, hp, hsp, _⟩ | ⟨p, hp, hsp, _⟩) <;>
      rw [find_clau_nodup g s hnodup p hp hsp.symm] at hfind <;> cases hfind
  | some p =>
    have hp : p ∈ g := List.mem_of_find?_eq_some hfind
    have hps : p.1 = s := by simpa [beq_iff_eq] using List.find?_some hfind
    simp only [List.any_eq_true]
    constructor
    · rintro ⟨q, hq, hcond⟩
      rcases (cond_buida_cky_iff q).mp hcond with rfl | rfl
      · exact Or.inl ⟨p, hp, hps.symm, hq⟩
      · exact Or.inr ⟨p, hp, hps.symm, hq⟩
    · rintro (⟨r, hr, hsr, hmem⟩ | ⟨r, hr, hsr, hmem⟩) <;>
        rw [find_clau_nodup g s hnodup r hr hsr.symm] at hfind <;>
        cases hfind
      · exact ⟨["ε"], hmem, by simp⟩
      · exact ⟨[""], hmem, by simp⟩

lemma comprovar_main_iff (g : Normes) (s : Simbol)
    (hnodup : (g.map Prod.fst).Nodup) :
    Main.comprovar_derivacio_buida ⟨g, s⟩ = true ↔ teParell g s [] := by
  unfold Main.comprovar_derivacio_buida
  cases hfind : g.find? (fun q => q.1 == s) with
  | none =>
    simp only [Bool.false_eq_true, false_iff]
    rintro ⟨p, hp, hsp, _⟩
    rw [find_clau_nodup g s hnodup p hp hsp.symm] at hfind
    cases hfind
  | some p =>
    have hp : p ∈ g := List.mem_of_find?_eq_some hfind
    have hps : p.1 = s := by simpa [beq_iff_eq] using List.find?_some hfind
    simp only [List.any_eq_true]
    constructor
    · rintro ⟨q, hq, hcond⟩
      have : q = [] := by simpa [beq_iff_eq] using hcond
      exact ⟨p, hp, hps.symm, this ▸ hq⟩
    · rintro ⟨r, hr, hsr, hmem⟩
      rw [find_clau_nodup g s hnodup r hr hsr.symm] at hfind
      cases hfind
      exact ⟨[], hmem, by simp⟩

/-! ## Table-cell lemmas -/

lemma getCella_setCella (t : Taula) (i j i' j' : Nat) (v : Cella) :
    getCella (setCella t i j v) i' j' = getCella t i' j' ∨
      getCella (setCella t i j v) i' j' = v := by
  unfold getCella setCella
  rcases list_getD_set_or t i i' ((t.getD i []).set j v) [] with h | ⟨heq, h⟩
  · rw [h]; exact Or.inl rfl
  · rw [h, heq]
    rcases list_getD_set_or (t.getD i []) j j' v ∅ with h2 | ⟨heq2, h2⟩
    · rw [h2]; exact Or.inl rfl
    · rw [h2]; exact Or.inr rfl

lemma getCella_updCella (t : Taula) (i j i' j' : Nat) (f : Cella → Cella) :
    getCella (updCella t i j f) i' j' = getCella t i' j' ∨
      getCella (updCella t i j f) i' j' = f (getCella t i j) :=
  getCella_setCella t i j i' j' (f (getCella t i j))

lemma updCella_id (t : Taula) (i j : Nat) : updCella t i j (fun c => c) = t := by
  unfold updCella setCella getCella
  rw [list_set_getD_self, list_set_getD_self]

lemma getCella_replicate (n m i j : Nat) :
    getCella (List.replicate n (List.replicate m (∅ : Cella))) i j = ∅ := by
  unfold getCella
  rw [list_getD_replicate]
  by_cases h : i < n
  · rw [if_pos h, list_getD_replicate]
    split <;> rfl
  · rw [if_neg h]
    simp

lemma list_set_of_ge {α : Type} (l : List α) (i : Nat) (v : α) (h : l.length ≤ i) :
    l.set i v = l := by
  induction l generalizing i with
  | nil => rfl
  | cons a t ih =>
    cases i with
    | zero => exact absurd h (by simp)
    | succ j => simpa using ih j (by simpa using h)

lemma list_mem_set {α : Type} {l : List α} {i : Nat} {v a : α} (h : a ∈ l.set i v) :
    a ∈ l ∨ a = v := by
  induction l generalizing i with
  | nil => simp at h
  | cons b t ih =>
    cases i with
    | zero =>
      rcases List.mem_cons.mp h with rfl | h2
      · exact Or.inr rfl
      · exact Or.inl (List.mem_cons_of_mem b h2)
    | succ j =>
      rcases List.mem_cons.mp h with rfl | h2
      · exact Or.inl (List.mem_cons_self a t)
      · rcases ih h2 with h3 | h3
        · exact Or.inl (List.mem_cons_of_mem b h3)
        · exact Or.inr h3

lemma list_getD_mem {α : Type} (l : List α) (i : Nat) (d : α) (h : i < l.length) :
    l.getD i d ∈ l := by
  induction l generalizing i with
  | nil => simp at h
  | cons a t ih =>
    cases i with
    | zero => simp
    | succ j =>
      have := ih j (by simpa using h)
      simpa using Or.inr this

/-! ## The table stays an n × n grid -/

lemma quadrada_replicate (n : Nat) :
    TaulaQuadrada n (List.replicate n (List.replicate n (∅ : Cella))) := by
  constructor
  · simp
  · intro row hrow
    rw [List.eq_of_mem_replicate hrow]
    simp

lemma quadrada_updCella (n : Nat) (t : Taula) (i j : Nat) (f : Cella → Cella)
    (ht : TaulaQuadrada n t) : TaulaQuadrada n (updCella t i j f) := by
  obtain ⟨hlen, hrows⟩ := ht
  unfold updCella setCella
  by_cases hi : i < t.length
  · constructor
    · rw [List.length_set, hlen]
    · intro row hrow
      rcases list_mem_set hrow with h | h
      · exact hrows row h
      · rw [h, List.length_set]
        exact hrows _ (list_getD_mem t i [] hi)
  · rw [list_set_of_ge _ _ _ (le_of_not_lt hi)]
    exact ⟨hlen, hrows⟩

/-! ## Generic invariant of the table-filling loops -/

lemma ompleTaula_inv (P : Taula → Prop) (Q : Cella → Prop)
    (D : Nat → Finset Simbol) (R : Simbol × Simbol → Finset Simbol) (n : Nat)
    (hD : ∀ col, Q (D col))
    (hbi : ∀ (s : Finset Simbol) (f : Simbol → Finset Simbol),
      (∀ x, Q (f x)) → Q (s.biUnion f))
    (hR : ∀ clau, Q (R clau))
    (h0 : P (List.replicate n (List.replicate n ∅)))
    (hupd : ∀ t i j X, Q X → P t → P (updCella t i j (fun c => c ∪ X))) :
    P (CKY.ompleTaula D R n) := by
  unfold CKY.ompleTaula
  apply foldl_inv
  · apply foldl_inv
    · exact h0
    · intro t col ht
      exact hupd t col col (D col) (hD col) ht
  · intro t n_fila ht
    apply foldl_inv
    · exact ht
    · intro t2 diag ht2
      apply foldl_inv
      · exact ht2
      · intro t3 k ht3
        dsimp only
        by_cases hsplit : getCella t3 diag (diag + k) = ∅ ∨
            getCella t3 (diag + k + 1) (diag + n_fila) = ∅
        · rw [if_pos hsplit]
          exact ht3
        · rw [if_neg hsplit]
          exact hupd t3 diag (diag + n_fila) _
            (hbi _ _ (fun B => hbi _ _ (fun C => hR _))) ht3

lemma ompleTaula_quadrada (D : Nat → Finset Simbol)
    (R : Simbol × Simbol → Finset Simbol) (n : Nat) :
    TaulaQuadrada n (CKY.ompleTaula D R n) :=
  ompleTaula_inv (TaulaQuadrada n) (fun _ => True) D R n
    (fun _ => trivial) (fun _ _ _ => trivial) (fun _ => trivial)
    (quadrada_replicate n)
    (fun t i j _ _ ht => quadrada_updCella n t i j _ ht)

/-! ## Cells only ever hold keys of the grammar -/

lemma claus_derivadors (g : Normes) (w : Simbol) :
    CellaDeClaus g (CKY.derivadorsTerminals g w) := by
  intro x hx
  obtain ⟨p, hp, hxp, _⟩ := (mem_derivadorsTerminals g w x).mp hx
  exact ⟨p, hp, hxp⟩

lemma claus_regles (g : Normes) (clau : Simbol × Simbol) :
    CellaDeClaus g (CKY.regles_binaries g clau) := by
  intro x hx
  obtain ⟨p, hp, hxp, _⟩ := (mem_regles_binaries g clau.1 clau.2 x).mp hx
  exact ⟨p, hp, hxp⟩

lemma claus_biUnion (g : Normes) (s : Finset Simbol) (f : Simbol → Finset Simbol)
    (hf : ∀ x, CellaDeClaus g (f x)) : CellaDeClaus g (s.biUnion f) := by
  intro x hx
  obtain ⟨B, _, hxB⟩ := Finset.mem_biUnion.mp hx
  exact hf B x hxB

lemma ompleTaula_claus (g : Normes) (D : Nat → Finset Simbol)
    (R : Simbol × Simbol → Finset Simbol) (n : Nat)
    (hD : ∀ col, CellaDeClaus g (D col))
    (hR : ∀ clau, CellaDeClaus g (R clau)) :
    TaulaDeClaus g (CKY.ompleTaula D R n) := by
  apply ompleTaula_inv (TaulaDeClaus g) (CellaDeClaus g) D R n hD
    (claus_biUnion g) hR
  · intro i j
    rw [getCella_replicate]
    intro x hx
    exact absurd hx (Finset.not_mem_empty x)
  · intro t i j X hX ht i' j'
    rcases getCella_updCella t i j i' j' (fun c => c ∪ X) with h | h
    · rw [h]
      exact ht i' j'
    · rw [h]
      intro x hx
      rcases Finset.mem_union.mp hx with h2 | h2
      · exact ht i j x h2
      · exact hX x h2

/-! ## The pruning check is a no-op -/

lemma poda_pas_eq (R : Simbol × Simbol → Finset Simbol) (t : Taula) (diag col k : Nat) :
    (updCella t diag col
      (fun c => c ∪ (getCella t diag (diag + k)).biUnion (fun no_terminal_diag =>
        (getCella t (diag + k + 1) col).biUnion (fun no_termina_col =>
          R (no_terminal_diag, no_termina_col)))))
    = (if getCella t diag (diag + k) = ∅ ∨ getCella t (diag + k + 1) col = ∅ then t
       else updCella t diag col
        (fun c => c ∪ (getCella t diag (diag + k)).biUnion (fun no_terminal_diag =>
          (getCella t (diag + k + 1) col).biUnion (fun no_termina_col =>
            R (no_terminal_diag, no_termina_col))))) := by
  by_cases h : getCella t diag (diag + k) = ∅ ∨ getCella t (diag + k + 1) col = ∅
  · rw [if_pos h]
    have hempty : (getCella t diag (diag + k)).biUnion (fun no_terminal_diag =>
        (getCella t (diag + k + 1) col).biUnion (fun no_termina_col =>
          R (no_terminal_diag, no_termina_col))) = ∅ := by
      rcases h with h | h <;> · ext y; simp [h]
    rw [hempty]
    have hid : (fun c : Cella => c ∪ (∅ : Finset Simbol)) = fun c : Cella => c :=
      funext fun c => Finset.union_empty c
    rw [hid, updCella_id]
  · rw [if_neg h]

lemma ompleTaulaSensePoda_eq (D : Nat → Finset Simbol)
    (R : Simbol × Simbol → Finset Simbol) (n : Nat) :
    CKY.ompleTaulaSensePoda D R n = CKY.ompleTaula D R n := by
  unfold CKY.ompleTaulaSensePoda CKY.ompleTaula
  apply foldl_ext
  intro t n_fila
  apply foldl_ext
  intro t2 diag
  apply foldl_ext
  intro t3 k
  exact poda_pas_eq R t3 diag (diag + n_fila) k

/-! ## Congruence of the recognizer in the grammar queries -/

lemma bool_eq_de_iff {a b : Bool} (h : (a = true) ↔ (b = true)) : a = b := by
  cases a <;> cases b <;> simp_all

lemma algoritme_congr (gA gB : Normes) (s : Simbol)
    (hd : ∀ w, CKY.derivadorsTerminals gA w = CKY.derivadorsTerminals gB w)
    (hr : ∀ clau, CKY.regles_binaries gA clau = CKY.regles_binaries gB clau)
    (hc : CKY.comprovar_derivacio_buida ⟨gA, s⟩ = CKY.comprovar_derivacio_buida ⟨gB, s⟩)
    (frase : List Simbol) :
    CKY.algoritme_cky ⟨gA, s⟩ frase = CKY.algoritme_cky ⟨gB, s⟩ frase := by
  unfold CKY.algoritme_cky
  by_cases hf : frase = []
  · rw [if_pos hf, if_pos hf, hc]
  · rw [if_neg hf, if_neg hf]
    have ht : CKY.construirTaula ⟨gA, s⟩ frase = CKY.construirTaula ⟨gB, s⟩ frase := by
      unfold CKY.construirTaula
      dsimp only
      rw [funext fun col => hd (frase.getD col ""), funext fun clau => hr clau]
    dsimp only
    rw [ht]

/-! ## A production body of length ≥ 3 is invisible everywhere -/

lemma teParell_afegit (pre post : Normes) (nt : Simbol) (bs1 bs2 : List Produccio)
    (b : Produccio) (x : Simbol) (q : Produccio) (hq : q ≠ b) :
    teParell (pre ++ (nt, bs1 ++ b :: bs2) :: post) x q ↔
      teParell (pre ++ (nt, bs1 ++ bs2) :: post) x q := by
  unfold teParell
  constructor
  · rintro ⟨p, hp, rfl, hmem⟩
    rcases List.mem_append.mp hp with h | h
    · exact ⟨p, List.mem_append.mpr (Or.inl h), rfl, hmem⟩
    · rcases List.mem_cons.mp h with rfl | h2
      · refine ⟨(nt, bs1 ++ bs2),
          List.mem_append.mpr (Or.inr (List.mem_cons_self _ _)), rfl, ?_⟩
        rcases List.mem_append.mp hmem with h3 | h3
        · exact List.mem_append.mpr (Or.inl h3)
        · rcases List.mem_cons.mp h3 with rfl | h4
          · exact absurd rfl hq
          · exact List.mem_append.mpr (Or.inr h4)
      · exact ⟨p, List.mem_append.mpr (Or.inr (List.mem_cons_of_mem _ h2)), rfl, hmem⟩
  · rintro ⟨p, hp, rfl, hmem⟩
    rcases List.mem_append.mp hp with h | h
    · exact ⟨p, List.mem_append.mpr (Or.inl h), rfl, hmem⟩
    · rcases List.mem_cons.mp h with rfl | h2
      · refine ⟨(nt, bs1 ++ b :: bs2),
          List.mem_append.mpr (Or.inr (List.mem_cons_self _ _)), rfl, ?_⟩
        rcases List.mem_append.mp hmem with h3 | h3
        · exact List.mem_append.mpr (Or.inl h3)
        · exact List.mem_append.mpr (Or.inr (List.mem_cons_of_mem _ h3))
      · exact ⟨p, List.mem_append.mpr (Or.inr (List.mem_cons_of_mem _ h2)), rfl, hmem⟩

lemma derivadors_afegit (pre post : Normes) (nt : Simbol) (bs1 bs2 : List Produccio)
    (b : Produccio) (hb : 3 ≤ b.length) (w : Simbol) :
    CKY.derivadorsTerminals (pre ++ (nt, bs1 ++ b :: bs2) :: post) w
      = CKY.derivadorsTerminals (pre ++ (nt, bs1 ++ bs2) :: post) w := by
  ext x
  rw [mem_derivadorsTerminals, mem_derivadorsTerminals]
  refine teParell_afegit pre post nt bs1 bs2 b x [w] ?_
  intro h
  rw [← h] at hb
  simp at hb

lemma regles_afegit (pre post : Normes) (nt : Simbol) (bs1 bs2 : List Produccio)
    (b : Produccio) (hb : 3 ≤ b.length) (clau : Simbol × Simbol) :
    CKY.regles_binaries (pre ++ (nt, bs1 ++ b :: bs2) :: post) clau
      = CKY.regles_binaries (pre ++ (nt, bs1 ++ bs2) :: post) clau := by
  obtain ⟨B, C⟩ := clau
  ext x
  rw [mem_regles_binaries, mem_regles_binaries]
  refine teParell_afegit pre post nt bs1 bs2 b x [B, C] ?_
  intro h
  rw [← h] at hb
  simp at hb

lemma comprovar_afegit (pre post : Normes) (nt : Simbol) (bs1 bs2 : List Produccio)
    (b : Produccio) (s : Simbol) (hb : b.length ≠ 1) :
    CKY.comprovar_derivacio_buida ⟨pre ++ (nt, bs1 ++ b :: bs2) :: post, s⟩
      = CKY.comprovar_derivacio_buida ⟨pre ++ (nt, bs1 ++ bs2) :: post, s⟩ := by
  unfold CKY.comprovar_derivacio_buida
  induction pre with
  | nil =>
    simp only [List.nil_append]
    by_cases h : (nt == s) = true
    · rw [@List.find?_cons_of_pos _ (fun r => r.1 == s) (nt, bs1 ++ b :: bs2) post h,
        @List.find?_cons_of_pos _ (fun r => r.1 == s) (nt, bs1 ++ bs2) post h]
      dsimp only
      rw [List.any_append, List.any_append, List.any_cons]
      have hbfalse : (b.length == 1 &&
          (b.getD 0 "" == "ε" || b.getD 0 "" == "")) = false := by
        simp [hb]
      rw [hbfalse]
      simp
    · rw [@List.find?_cons_of_neg _ (fun r => r.1 == s) (nt, bs1 ++ b :: bs2) post h,
        @List.find?_cons_of_neg _ (fun r => r.1 == s) (nt, bs1 ++ bs2) post h]
  | cons q pre2 ih =>
    simp only [List.cons_append]
    by_cases h : (q.1 == s) = true
    · rw [@List.find?_cons_of_pos _ (fun r => r.1 == s) q
          (pre2 ++ (nt, bs1 ++ b :: bs2) :: post) h,
        @List.find?_cons_of_pos _ (fun r => r.1 == s) q
          (pre2 ++ (nt, bs1 ++ bs2) :: post) h]
    · rw [@List.find?_cons_of_neg _ (fun r => r.1 == s) q
          (pre2 ++ (nt, bs1 ++ b :: bs2) :: post) h,
        @List.find?_cons_of_neg _ (fun r => r.1 == s) q
          (pre2 ++ (nt, bs1 ++ bs2) :: post) h]
      exact ih

/-! ## The claims -/

/-- C1, counterexample: the claim "`recognize(G, [])` is true iff `G` has a
production with an empty body on the start symbol" fails on the `src/cky.py`
recognizer: for the grammar whose single entry gives the start symbol S the
zero-length body, the empty body is present and yet `algoritme_cky` on the
empty input returns false, because `_comprovar_derivacio_buida` there only
accepts a one-symbol body holding the sentinel. -/
theorem c1_recognize_buida_contraexemple :
    ([] : Produccio) ∈ [([] : Produccio)] ∧
    ("S", [([] : Produccio)]) ∈ ([("S", [([] : Produccio)])] : Normes) ∧
    CKY.algoritme_cky ⟨[("S", [([] : Produccio)])], "S"⟩ [] = false := by
  refine ⟨by simp, by simp, by decide⟩

/-- C1, amended: on the empty input, the `src/main.py` recognizer returns
true iff the start symbol has a zero-length production body, while the
`src/cky.py` recognizer returns true iff the start symbol has a one-symbol
body whose symbol is the sentinel "ε" or the empty string (grammars with
unique keys, as every Python dict has). -/
theorem c1_recognize_buida_esmenat (g : Normes) (s : Simbol)
    (hnodup : (g.map Prod.fst).Nodup) :
    (Main.algoritme_cky ⟨g, s⟩ [] = true ↔ teParell g s []) ∧
    (CKY.algoritme_cky ⟨g, s⟩ [] = true ↔
      (teParell g s ["ε"] ∨ teParell g s [""])) := by
  constructor
  · rw [show Main.algoritme_cky ⟨g, s⟩ []
        = Main.comprovar_derivacio_buida ⟨g, s⟩ from rfl]
    exact comprovar_main_iff g s hnodup
  · rw [show CKY.algoritme_cky ⟨g, s⟩ []
        = CKY.comprovar_derivacio_buida ⟨g, s⟩ from rfl]
    exact comprovar_cky_iff g s hnodup

/-- C1, witness for the amended theorem at a concrete grammar. -/
theorem c1_recognize_buida_esmenat_testimoni :
    (Main.algoritme_cky ⟨[("S", [["ε"], []])], "S"⟩ [] = true ↔
      teParell [("S", [["ε"], []])] "S" []) ∧
    (CKY.algoritme_cky ⟨[("S", [["ε"], []])], "S"⟩ [] = true ↔
      (teParell [("S", [["ε"], []])] "S" ["ε"] ∨
        teParell [("S", [["ε"], []])] "S" [""])) :=
  c1_recognize_buida_esmenat [("S", [["ε"], []])] "S" (by decide)

/-- C2: for every grammar, start symbol and non-empty token sequence, the
`src/main.py` recognizer (after `carregar_gramatica`) and the `src/cky.py`
recognizer return the same boolean. -/
theorem c2_dues_implementacions (normes : Normes) (s : Simbol)
    (frase : List Simbol) (h : frase ≠ []) :
    Main.algoritme_cky (Main.carregar_gramatica normes s) frase
      = CKY.algoritme_cky ⟨normes, s⟩ frase := by
  unfold Main.algoritme_cky CKY.algoritme_cky Main.carregar_gramatica
  rw [if_neg h, if_neg h]
  rfl

/-- C2, witness at grammar G1 on the sentence "ab". -/
theorem c2_dues_implementacions_testimoni :
    Main.algoritme_cky (Main.carregar_gramatica create_grammar_g1 "S") ["a", "b"]
      = CKY.algoritme_cky ⟨create_grammar_g1, "S"⟩ ["a", "b"] :=
  c2_dues_implementacions create_grammar_g1 "S" ["a", "b"] (by decide)

/-- C3: the recognizer is total -- it returns one of the two booleans on
every grammar and token sequence -- and for every non-empty input the table
it builds is an n × n grid with every row of length n, so the final access
to cell (0, n-1) is in bounds. -/
theorem c3_recognize_total (self : CKY.Gramatica) (frase : List Simbol) :
    (CKY.algoritme_cky self frase = true ∨ CKY.algoritme_cky self frase = false) ∧
    (frase ≠ [] →
      (CKY.construirTaula self frase).length = frase.length ∧
      (∀ row ∈ CKY.construirTaula self frase, row.length = frase.length) ∧
      frase.length - 1 < frase.length) := by
  constructor
  · cases CKY.algoritme_cky self frase
    · exact Or.inr rfl
    · exact Or.inl rfl
  · intro h
    have hq := ompleTaula_quadrada
      (fun col => CKY.derivadorsTerminals self.gramatica (frase.getD col ""))
      (fun clau => CKY.regles_binaries self.gramatica clau) frase.length
    refine ⟨hq.1, hq.2, ?_⟩
    have hpos : 0 < frase.length := List.length_pos.mpr h
    omega

/-- C3, witness at grammar G1 on the sentence "ab". -/
theorem c3_recognize_total_testimoni :
    (CKY.construirTaula ⟨create_grammar_g1, "S"⟩ ["a", "b"]).length = 2 ∧
    (∀ row ∈ CKY.construirTaula ⟨create_grammar_g1, "S"⟩ ["a", "b"],
      row.length = 2) ∧
    (2 : Nat) - 1 < 2 :=
  (c3_recognize_total ⟨create_grammar_g1, "S"⟩ ["a", "b"]).2 (by decide)

/-- C4: single-token recognition is exactly the base case: `algoritme_cky`
on `[t]` is true iff the start symbol itself has the unit production body
`[t]`; no binary production and no unit production of another non-terminal
can influence the answer. -/
theorem c4_un_sol_token (self : CKY.Gramatica) (t : Simbol) :
    CKY.algoritme_cky self [t] = true ↔
      ∃ p, p ∈ self.gramatica ∧ self.simbol_arrel = p.1 ∧ [t] ∈ p.2 := by
  obtain ⟨g, s⟩ := self
  have h0 : CKY.algoritme_cky ⟨g, s⟩ [t]
      = decide (s ∈ (∅ ∪ CKY.derivadorsTerminals g t : Finset Simbol)) := rfl
  rw [h0, decide_eq_true_iff, Finset.empty_union, mem_derivadorsTerminals]
  exact Iff.rfl

/-- C5: the pruning step is semantically a no-op: the recognizer that skips
a split point whenever one of the two sides is empty computes the same
result as the recognizer without the skip, on every input. -/
theorem c5_poda_sense_efecte (self : CKY.Gramatica) (frase : List Simbol) :
    CKY.algoritme_cky_sense_poda self frase = CKY.algoritme_cky self frase := by
  unfold CKY.algoritme_cky_sense_poda CKY.algoritme_cky CKY.construirTaula
  by_cases hf : frase = []
  · rw [if_pos hf, if_pos hf]
  · rw [if_neg hf, if_neg hf]
    simp only [ompleTaulaSensePoda_eq]

/-- C6: a malformed production body of length ≥ 3, added anywhere to the
body list of any non-terminal, is silently excluded: the binary-rule index
is unchanged at every key and every recognition result is unchanged. -/
theorem c6_cos_llarg_ignorat (pre post : Normes) (nt : Simbol)
    (bs1 bs2 : List Produccio) (b : Produccio) (s : Simbol)
    (hb : 3 ≤ b.length) :
    (∀ clau, CKY.regles_binaries (pre ++ (nt, bs1 ++ b :: bs2) :: post) clau
        = CKY.regles_binaries (pre ++ (nt, bs1 ++ bs2) :: post) clau) ∧
    (∀ frase, CKY.algoritme_cky ⟨pre ++ (nt, bs1 ++ b :: bs2) :: post, s⟩ frase
        = CKY.algoritme_cky ⟨pre ++ (nt, bs1 ++ bs2) :: post, s⟩ frase) := by
  constructor
  · exact regles_afegit pre post nt bs1 bs2 b hb
  · intro frase
    exact algoritme_congr _ _ s
      (derivadors_afegit pre post nt bs1 bs2 b hb)
      (regles_afegit pre post nt bs1 bs2 b hb)
      (comprovar_afegit pre post nt bs1 bs2 b s (by omega))
      frase

/-- C6, witness: adding the length-3 body B C D to S changes neither the
index at the key (B, C) nor the result on the one-token sentence "a". -/
theorem c6_cos_llarg_ignorat_testimoni :
    CKY.regles_binaries [("S", [["a"], ["B", "C", "D"]]), ("X", [["a"]])] ("B", "C")
      = CKY.regles_binaries [("S", [["a"]]), ("X", [["a"]])] ("B", "C") ∧
    CKY.algoritme_cky ⟨[("S", [["a"], ["B", "C", "D"]]), ("X", [["a"]])], "S"⟩ ["a"]
      = CKY.algoritme_cky ⟨[("S", [["a"]]), ("X", [["a"]])], "S"⟩ ["a"] :=
  ⟨(c6_cos_llarg_ignorat [] [("X", [["a"]])] "S" [["a"]] [] ["B", "C", "D"] "S"
      (by decide)).1 ("B", "C"),
   (c6_cos_llarg_ignorat [] [("X", [["a"]])] "S" [["a"]] [] ["B", "C", "D"] "S"
      (by decide)).2 ["a"]⟩

/-- C7: when the start symbol is not a key of the grammar mapping, the
recognizer returns false on every token sequence, empty or not: the
empty-derivation check finds no entry, and no table cell can ever contain
the start symbol since cells only receive keys of the mapping. -/
theorem c7_arrel_desconeguda (self : CKY.Gramatica)
    (h : self.simbol_arrel ∉ self.gramatica.map Prod.fst) (frase : List Simbol) :
    CKY.algoritme_cky self frase = false := by
  obtain ⟨g, s⟩ := self
  dsimp only at h
  unfold CKY.algoritme_cky
  by_cases hf : frase = []
  · rw [if_pos hf]
    unfold CKY.comprovar_derivacio_buida
    dsimp only
    rw [find_clau_none g s (fun p hp hps => h (List.mem_map.mpr ⟨p, hp, hps⟩))]
  · rw [if_neg hf]
    have hc := ompleTaula_claus g
      (fun col => CKY.derivadorsTerminals g (frase.getD col ""))
      (fun clau => CKY.regles_binaries g clau) frase.length
      (fun col => claus_derivadors g _) (fun clau => claus_regles g clau)
    dsimp only
    apply decide_eq_false
    intro hmem
    obtain ⟨p, hp, hps⟩ := hc 0 (frase.length - 1) s hmem
    exact h (List.mem_map.mpr ⟨p, hp, hps.symm⟩)

/-- C7, witness: a grammar whose only key is A, start symbol S, on "a". -/
theorem c7_arrel_desconeguda_testimoni :
    CKY.algoritme_cky ⟨[("A", [["a"]])], "S"⟩ ["a"] = false :=
  c7_arrel_desconeguda ⟨[("A", [["a"]])], "S"⟩ (by decide) ["a"]

/-- C8: order independence: two grammars with unique keys holding the same
set of (non-terminal, body) pairs give the same recognition result on every
token sequence, whatever the enumeration order of entries and bodies. -/
theorem c8_independencia_ordre (g g2 : Normes) (s : Simbol)
    (hnodup : (g.map Prod.fst).Nodup) (hnodup2 : (g2.map Prod.fst).Nodup)
    (hparells : ∀ x produccio, teParell g x produccio ↔ teParell g2 x produccio)
    (frase : List Simbol) :
    CKY.algoritme_cky ⟨g, s⟩ frase = CKY.algoritme_cky ⟨g2, s⟩ frase :=
  algoritme_congr g g2 s
    (fun w => by
      ext x
      rw [mem_derivadorsTerminals, mem_derivadorsTerminals]
      exact hparells x [w])
    (fun clau => by
      obtain ⟨B, C⟩ := clau
      ext x
      rw [mem_regles_binaries, mem_regles_binaries]
      exact hparells x [B, C])
    (bool_eq_de_iff (by
      rw [comprovar_cky_iff g s hnodup, comprovar_cky_iff g2 s hnodup2]
      exact or_congr (hparells s ["ε"]) (hparells s [""])))
    frase

/-- C8, witness: swapping the two entries of a grammar leaves the result on
"a" unchanged. -/
theorem c8_independencia_ordre_testimoni :
    CKY.algoritme_cky ⟨[("S", [["a"]]), ("A", [["b"]])], "S"⟩ ["a"]
      = CKY.algoritme_cky ⟨[("A", [["b"]]), ("S", [["a"]])], "S"⟩ ["a"] :=
  c8_independencia_ordre [("S", [["a"]]), ("A", [["b"]])]
    [("A", [["b"]]), ("S", [["a"]])] "S" (by decide) (by decide)
    (by
      intro x produccio
      unfold teParell
      simp only [List.mem_cons, List.not_mem_nil, or_false]
      constructor
      · rintro ⟨p, (rfl | rfl), hx, hm⟩
        · exact ⟨_, Or.inr rfl, hx, hm⟩
        · exact ⟨_, Or.inl rfl, hx, hm⟩
      · rintro ⟨p, (rfl | rfl), hx, hm⟩
        · exact ⟨_, Or.inr rfl, hx, hm⟩
        · exact ⟨_, Or.inl rfl, hx, hm⟩)
    ["a"]

/-- C9: on the concrete grammar G1 the sentence "ab" is rejected. -/
theorem c9_g1_ab_fals :
    CKY.algoritme_cky ⟨create_grammar_g1, "S"⟩ ["a", "b"] = false := by decide

/-- C10: in `src/cky.py` the empty-body sentinel doubles as an ordinary
terminal: a one-symbol body "ε" (or "") under the start symbol makes the
recognizer accept the empty input and also accept the one-token input
holding that same sentinel symbol. -/
theorem c10_sentinella_terminal (self : CKY.Gramatica) (x : Simbol)
    (produccions : List Produccio)
    (hx : x = "ε" ∨ x = "")
    (hnodup : (self.gramatica.map Prod.fst).Nodup)
    (hp : (self.simbol_arrel, produccions) ∈ self.gramatica)
    (hmem : [x] ∈ produccions) :
    CKY.algoritme_cky self [] = true ∧ CKY.algoritme_cky self [x] = true := by
  obtain ⟨g, s⟩ := self
  dsimp only at hnodup hp
  constructor
  · rw [show CKY.algoritme_cky ⟨g, s⟩ []
        = CKY.comprovar_derivacio_buida ⟨g, s⟩ from rfl]
    rw [comprovar_cky_iff g s hnodup]
    rcases hx with rfl | rfl
    · exact Or.inl ⟨(s, produccions), hp, rfl, hmem⟩
    · exact Or.inr ⟨(s, produccions), hp, rfl, hmem⟩
  · rw [show CKY.algoritme_cky ⟨g, s⟩ [x]
        = decide (s ∈ (∅ ∪ CKY.derivadorsTerminals g x : Finset Simbol)) from rfl]
    rw [decide_eq_true_iff, Finset.empty_union, mem_derivadorsTerminals]
    exact ⟨(s, produccions), hp, rfl, hmem⟩

/-- C10, witness at the grammar whose start symbol derives the body "ε". -/
theorem c10_sentinella_terminal_testimoni :
    CKY.algoritme_cky ⟨[("S", [["ε"]])], "S"⟩ [] = true ∧
    CKY.algoritme_cky ⟨[("S", [["ε"]])], "S"⟩ ["ε"] = true :=
  c10_sentinella_terminal ⟨[("S", [["ε"]])], "S"⟩ "ε" [["ε"]]
    (Or.inl rfl) (by decide) (by decide) (by decide)
